import Mathlib

/-! # Shallow embedding of `agc/agc.py` (OTU abundance-greedy clustering)

The Python module reads a gzipped FASTA file, dereplicates the extracted
sequences and greedily clusters them into OTUs.  The embedding below models:

* the input file by its list of (newline-free) text lines;
* the external pairwise aligner `nwalign3.global_align` (called with
  `gap_open=-1`, `gap_extend=-1` and the `MATCH` matrix) by an abstract
  function `align : String → String → String × String` returning the pair
  of gapped strings;
* Python floats by exact rationals (the quantities involved are exact
  quotients of small integers);
* Python exceptions by `Option` / `Except`: the `ZeroDivisionError` that
  `get_identity` raises on an empty first aligned string becomes `none`,
  and the `StopIteration` that `next` raises on an exhausted dereplication
  generator becomes `Except.error AgcError.stopIteration`.
-/

open scoped List

namespace Agc

/-- Python `line.strip()`: leading and trailing whitespace removed, acting on
the character list of the string. -/
def stripLine (line : String) : String :=
  ⟨(((line.data.dropWhile Char.isWhitespace).reverse).dropWhile Char.isWhitespace).reverse⟩

/-- Python `line.startswith(">")`: the first character of the line is `>`. -/
def isHeader (line : String) : Bool :=
  match line.data with
  | [] => false
  | c :: _ => c == '>'

/-- The loop of `read_fasta` (`agc.py`, lines 81-91): `sequence` is the
accumulator variable; at a header line the accumulated sequence is yielded
when it passes the length filter and the accumulator is reset; other lines
are stripped and appended; at end of file the accumulator is yielded under
the same filter. -/
def readFastaAux (minseqlen : ℕ) : String → List String → List String
  | sequence, [] => if minseqlen ≤ sequence.length then [sequence] else []
  | sequence, line :: rest =>
    if isHeader line then
      (if minseqlen ≤ sequence.length then [sequence] else []) ++
        readFastaAux minseqlen "" rest
    else
      readFastaAux minseqlen (sequence ++ stripLine line) rest

/-- Function `read_fasta(amplicon_file, minseqlen)` with the (decompressed) file given
as its list of lines. -/
def read_fasta (lines : List String) (minseqlen : ℕ) : List String :=
  readFastaAux minseqlen "" lines

/-- One iteration of the tally loop of `dereplication_fulllength`
(`agc.py`, lines 105-108).  A Python `dict` is insertion-ordered, so
`seq_dict` is modelled by an association list: a new key is appended with
count `0 + 1`, an existing key is incremented in place. -/
def tallyInsert (acc : List (String × ℕ)) (sequence : String) : List (String × ℕ) :=
  if sequence ∈ acc.map Prod.fst then
    acc.map fun p => if p.1 = sequence then (p.1, p.2 + 1) else p
  else
    acc ++ [(sequence, 1)]

/-- The `seq_dict` built by `dereplication_fulllength` from the extracted
sequences. -/
def seq_dict (sequences : List String) : List (String × ℕ) :=
  sequences.foldl tallyInsert []

/-- Python `sorted(seq_dict.items(), key=lambda x: x[1], reverse=True)` (line 109):
Python's sort is stable and `reverse=True` keeps equal keys in insertion
order, which is exactly `mergeSort` with the non-strict descending
comparison on counts. -/
def dict_sorted (d : List (String × ℕ)) : List (String × ℕ) :=
  d.mergeSort fun x y => decide (y.2 ≤ x.2)

/-- Function `dereplication_fulllength(amplicon_file, minseqlen, mincount)`
(lines 103-112): tally the extracted sequences, sort by count descending,
and emit, in order, the entries with `count >= mincount`. -/
def dereplication_fulllength (lines : List String) (minseqlen mincount : ℕ) :
    List (String × ℕ) :=
  (dict_sorted (seq_dict (read_fasta lines minseqlen))).filter fun p => mincount ≤ p.2

/-- Python `sum(1 for a, b in zip(alignment_list[0], alignment_list[1]) if a == b)`
(line 122). -/
def nb_identity (s0 s1 : String) : ℕ :=
  (s0.data.zip s1.data).countP fun p => p.1 == p.2

/-- Function `get_identity(alignment_list)` (lines 115-124): the number of equal
aligned positions divided by the length of the first aligned string, times
100.  The division raises `ZeroDivisionError` when the first aligned string
is empty; this is modelled by `none`. -/
def get_identity (alignment : String × String) : Option ℚ :=
  if alignment.1.length = 0 then none
  else some ((nb_identity alignment.1 alignment.2 : ℚ) / (alignment.1.length : ℚ) * 100)

/-- Errors of `abundance_greedy_clustering`: `StopIteration` from `next` on
an empty dereplication generator, and `ZeroDivisionError` propagated from
`get_identity`. -/
inductive AgcError where
  | stopIteration : AgcError
  | zeroDivision : AgcError
deriving DecidableEq

/-- The inner `for otu in otu_list` loop of `abundance_greedy_clustering`
(lines 142-150), returning the final value of the `is_otu` flag: each
existing OTU is aligned with the candidate sequence `s`; on the first OTU
with strictly greater count and identity strictly above 97 the loop breaks
with `is_otu = False`. -/
def scanOtus (align : String → String → String × String) (s : String) (c : ℕ) :
    List (String × ℕ) → Except AgcError Bool
  | [] => Except.ok true
  | otu :: rest =>
    match get_identity (align otu.1 s) with
    | none => Except.error AgcError.zeroDivision
    | some idy =>
      if c < otu.2 ∧ 97 < idy then Except.ok false
      else scanOtus align s c rest

/-- One iteration of the outer loop (lines 141-152): the candidate is
appended to the OTU list exactly when the scan left `is_otu` true. -/
def clusterStep (align : String → String → String × String)
    (otu_list : List (String × ℕ)) (s : String) (c : ℕ) :
    Except AgcError (List (String × ℕ)) :=
  match scanOtus align s c otu_list with
  | Except.error e => Except.error e
  | Except.ok true => Except.ok (otu_list ++ [(s, c)])
  | Except.ok false => Except.ok otu_list

/-- The outer `for sequence, count in dereplication` loop (lines 141-152). -/
def clusterLoop (align : String → String → String × String) :
    List (String × ℕ) → List (String × ℕ) → Except AgcError (List (String × ℕ))
  | otu_list, [] => Except.ok otu_list
  | otu_list, (sequence, count) :: rest =>
    match clusterStep align otu_list sequence count with
    | Except.error e => Except.error e
    | Except.ok l => clusterLoop align l rest

/-- Function `abundance_greedy_clustering` (lines 126-153) on the dereplicated
records: the list is seeded with `next(dereplication)` — raising
`StopIteration` when the generator is empty — and the remaining records are
processed by the greedy loop. -/
def abundance_greedy_clustering (align : String → String → String × String)
    (derep : List (String × ℕ)) : Except AgcError (List (String × ℕ)) :=
  match derep with
  | [] => Except.error AgcError.stopIteration
  | first :: rest => clusterLoop align [first] rest

/-- Function `abundance_greedy_clustering` applied to an amplicon file (given as its
lines), composing the dereplication with the greedy loop as in the source. -/
def abundance_greedy_clustering_file (align : String → String → String × String)
    (lines : List String) (minseqlen mincount : ℕ) :
    Except AgcError (List (String × ℕ)) :=
  abundance_greedy_clustering align (dereplication_fulllength lines minseqlen mincount)

/-- The absorption condition of the greedy loop (line 148): the existing
OTU is strictly more abundant than the candidate and the identity of the
global alignment of its sequence with the candidate is strictly above 97. -/
def qualifies (align : String → String → String × String) (s : String) (c : ℕ)
    (otu : String × ℕ) : Prop :=
  c < otu.2 ∧ ∃ q : ℚ, get_identity (align otu.1 s) = some q ∧ 97 < q

/-- Spec-side count of matching positions: the number of indices, below both
lengths, where the two strings carry equal characters. -/
def specMatchCount (s t : String) : ℕ :=
  ((List.range (min s.length t.length)).filter
    fun i => s.data.getD i default == t.data.getD i default).length

/-! ## The identity scorer -/

lemma string_length_eq_zero_iff {s : String} : s.length = 0 ↔ s = "" := by
  rw [← String.length_data, List.length_eq_zero, String.ext_iff]

lemma get_identity_none_iff (p : String × String) : get_identity p = none ↔ p.1 = "" := by
  rw [get_identity]
  split <;> simp_all [← string_length_eq_zero_iff]

lemma countP_zip_eq_specCount (a b : List Char) :
    (a.zip b).countP (fun p => p.1 == p.2) =
      ((List.range (min a.length b.length)).filter
        fun i => a.getD i default == b.getD i default).length := by
  induction a generalizing b with
  | nil => simp
  | cons x a ih =>
    cases b with
    | nil => simp
    | cons y b =>
      by_cases h : (x == y) = true <;>
        simp [List.countP_cons, Nat.succ_min_succ, List.range_succ_eq_map,
          List.filter_cons, h, List.filter_map, Function.comp_def, ih b]

lemma nb_identity_eq_specMatchCount (s t : String) :
    nb_identity s t = specMatchCount s t := by
  rw [nb_identity, specMatchCount, ← String.length_data s, ← String.length_data t]
  exact countP_zip_eq_specCount s.data t.data

lemma nb_identity_le (s t : String) : nb_identity s t ≤ s.length := by
  calc (s.data.zip t.data).countP (fun p => p.1 == p.2)
      ≤ (s.data.zip t.data).length := List.countP_le_length _
    _ = min s.data.length t.data.length := List.length_zip s.data t.data
    _ ≤ s.data.length := Nat.min_le_left _ _
    _ = s.length := String.length_data s

lemma nb_identity_self (s : String) : nb_identity s s = s.length := by
  rw [nb_identity, ← String.length_data]
  induction s.data with
  | nil => simp
  | cons x l ih => simp [List.countP_cons, ih]

lemma get_identity_some {s : String} (t : String) (h : s ≠ "") :
    get_identity (s, t) = some ((nb_identity s t : ℚ) / (s.length : ℚ) * 100) := by
  rw [get_identity]
  split
  · exact absurd (string_length_eq_zero_iff.mp (by assumption)) h
  · rfl

lemma identity_value_bounds {nb len : ℕ} (hle : nb ≤ len) (hpos : 0 < len) :
    0 ≤ (nb : ℚ) / (len : ℚ) * 100 ∧ (nb : ℚ) / (len : ℚ) * 100 ≤ 100 := by
  constructor
  · positivity
  · have hlen : (0 : ℚ) < (len : ℚ) := by exact_mod_cast hpos
    have h1 : (nb : ℚ) / (len : ℚ) ≤ 1 :=
      (div_le_one hlen).mpr (by exact_mod_cast hle)
    calc (nb : ℚ) / (len : ℚ) * 100 ≤ 1 * 100 := by
          exact mul_le_mul_of_nonneg_right h1 (by norm_num)
      _ = 100 := by norm_num

/-- C3 (corrected: the first aligned string must be non-empty, otherwise
`get_identity` raises `ZeroDivisionError`): for every pair of equal-length
strings with a non-empty first component, `get_identity` returns the number
of positions with exactly equal characters divided by the length of the
first string, times 100; the value lies in `[0, 100]`, and two identical
strings yield exactly 100. -/
theorem C3_identity_formula (s t : String) (hlen : s.length = t.length) (hne : s ≠ "") :
    get_identity (s, t) = some ((specMatchCount s t : ℚ) / (s.length : ℚ) * 100) ∧
    (∀ q : ℚ, get_identity (s, t) = some q → 0 ≤ q ∧ q ≤ 100) ∧
    (s = t → get_identity (s, t) = some 100) := by
  have hpos : 0 < s.length :=
    Nat.pos_of_ne_zero (fun h0 => hne (string_length_eq_zero_iff.mp h0))
  refine ⟨?_, ?_, ?_⟩
  · rw [get_identity_some t hne, nb_identity_eq_specMatchCount]
  · intro q hq
    rw [get_identity_some t hne, Option.some_inj] at hq
    exact hq ▸ identity_value_bounds (nb_identity_le s t) hpos
  · intro hst
    subst hst
    rw [get_identity_some s hne, nb_identity_self]
    have hlen0 : ((s.length : ℚ)) ≠ 0 := by exact_mod_cast Nat.pos_iff_ne_zero.mp hpos
    rw [div_self hlen0]
    norm_num

/-- Witness for C3 at a concrete input. -/
theorem C3_identity_formula_witness :
    get_identity ("AG", "AC") = some ((specMatchCount "AG" "AC" : ℚ) / ((2 : ℕ) : ℚ) * 100) ∧
    (∀ q : ℚ, get_identity ("AG", "AC") = some q → 0 ≤ q ∧ q ≤ 100) ∧
    ("AG" = "AC" → get_identity ("AG", "AC") = some 100) :=
  C3_identity_formula "AG" "AC" (by decide) (by decide)

/-- C3 counterexample: on the empty pair of equal-length strings the code
raises `ZeroDivisionError` (modelled `none`) instead of returning an
identity value, so the claim fails as stated for arbitrary equal-length
pairs. -/
theorem C3_identity_counterexample : get_identity ("", "") = none := rfl

/-- C9: `get_identity` is total on every pair whose first string is
non-empty, even for unequal lengths — it counts the equal positions up to
the shorter length and divides by the length of the first string — and the
sole error branch is the division by zero on an empty first string. -/
theorem C9_identity_total (s t : String) :
    (s ≠ "" → get_identity (s, t) =
      some ((specMatchCount s t : ℚ) / (s.length : ℚ) * 100)) ∧
    (s = "" → get_identity (s, t) = none) := by
  constructor
  · intro hne
    rw [get_identity_some t hne, nb_identity_eq_specMatchCount]
  · intro h0
    exact (get_identity_none_iff (s, t)).mpr h0

/-- Witness for C9: a non-empty first string of a different length than the
second, and the empty first string. -/
theorem C9_identity_total_witness :
    get_identity ("AG", "ACX") =
      some ((specMatchCount "AG" "ACX" : ℚ) / ((String.length "AG" : ℕ) : ℚ) * 100) ∧
    get_identity ("", "ACX") = none :=
  ⟨(C9_identity_total "AG" "ACX").1 (by decide), (C9_identity_total "" "ACX").2 rfl⟩

/-! ## The sequence extractor -/

lemma readFastaAux_min_length {minseqlen : ℕ} :
    ∀ (lines : List String) (acc s : String),
      s ∈ readFastaAux minseqlen acc lines → minseqlen ≤ s.length := by
  intro lines
  induction lines with
  | nil =>
    intro acc s hs
    rw [readFastaAux] at hs
    split at hs
    · rw [List.mem_singleton] at hs
      subst hs
      assumption
    · simp at hs
  | cons line rest ih =>
    intro acc s hs
    rw [readFastaAux] at hs
    split at hs
    · rw [List.mem_append] at hs
      rcases hs with hs | hs
      · split at hs
        · rw [List.mem_singleton] at hs
          subst hs
          assumption
        · simp at hs
      · exact ih "" s hs
    · exact ih _ s hs

/-- C8 (corrected: only for `minseqlen ≥ 1`): every sequence emitted by
`read_fasta` has length at least `minseqlen`, so for any positive length
threshold a header with no following sequence content is never emitted as a
zero-length sequence; the zero-length artefacts appear only when
`minseqlen = 0`. -/
theorem C8_length_filter (lines : List String) (minseqlen : ℕ) (h : 1 ≤ minseqlen) :
    ∀ s ∈ read_fasta lines minseqlen, s ≠ "" ∧ minseqlen ≤ s.length := by
  intro s hs
  have hlen := readFastaAux_min_length lines "" s hs
  refine ⟨?_, hlen⟩
  intro hempty
  subst hempty
  have h0 : String.length "" = 0 := rfl
  omega

/-- Witness for C8 at a concrete input. -/
theorem C8_length_filter_witness : "ACGT" ≠ "" ∧ 1 ≤ String.length "ACGT" :=
  C8_length_filter [">a", "ACGT"] 1 (by decide) "ACGT" (by decide)

/-- C8 counterexample: with `minseqlen = 0` a header line with no following
sequence content (here both `>seq1` followed by `>seq2` and `>seq2`
followed by end of input) is counted as a zero-length sequence that passes
the length filter, so the claim fails when quantified over every
`minseqlen`. -/
theorem C8_zero_length_counterexample :
    read_fasta [">seq1", ">seq2"] 0 = ["", "", ""] ∧ String.length "" = 0 := by
  constructor
  · rfl
  · rfl

/-! ## The greedy clustering engine -/

lemma scanOtus_cons_none {align : String → String → String × String}
    {s : String} {c : ℕ} {otu : String × ℕ} {rest : List (String × ℕ)}
    (hgi : get_identity (align otu.1 s) = none) :
    scanOtus align s c (otu :: rest) = Except.error AgcError.zeroDivision := by
  rw [scanOtus, hgi]

lemma scanOtus_cons_some {align : String → String → String × String}
    {s : String} {c : ℕ} {otu : String × ℕ} {rest : List (String × ℕ)} {idy : ℚ}
    (hgi : get_identity (align otu.1 s) = some idy) :
    scanOtus align s c (otu :: rest) =
      if c < otu.2 ∧ 97 < idy then Except.ok false else scanOtus align s c rest := by
  rw [scanOtus, hgi]

lemma scanOtus_ok_true_not_qualifies {align : String → String → String × String}
    {s : String} {c : ℕ} :
    ∀ {L : List (String × ℕ)}, scanOtus align s c L = Except.ok true →
      ∀ otu ∈ L, ¬ qualifies align s c otu := by
  intro L
  induction L with
  | nil =>
    intro _ otu h
    simp at h
  | cons o rest ih =>
    intro h otu hmem
    cases hgi : get_identity (align o.1 s) with
    | none =>
      rw [scanOtus_cons_none hgi] at h
      exact absurd h (by simp)
    | some idy =>
      rw [scanOtus_cons_some hgi] at h
      by_cases hcond : c < o.2 ∧ 97 < idy
      · rw [if_pos hcond] at h
        exact absurd h (by simp)
      · rw [if_neg hcond] at h
        rcases List.mem_cons.mp hmem with rfl | hmem'
        · rintro ⟨h1, q, hq, h97⟩
          rw [hgi, Option.some_inj] at hq
          exact hcond ⟨h1, hq ▸ h97⟩
        · exact ih h otu hmem'

lemma scanOtus_ok_true_of_forall {align : String → String → String × String}
    {s : String} {c : ℕ} :
    ∀ {L : List (String × ℕ)},
      (∀ otu ∈ L, get_identity (align otu.1 s) ≠ none ∧ ¬ qualifies align s c otu) →
      scanOtus align s c L = Except.ok true := by
  intro L
  induction L with
  | nil => intro _; rfl
  | cons o rest ih =>
    intro h
    obtain ⟨⟨hne, hnq⟩, hrest⟩ := List.forall_mem_cons.mp h
    cases hgi : get_identity (align o.1 s) with
    | none => exact absurd hgi hne
    | some idy =>
      have hcond : ¬ (c < o.2 ∧ 97 < idy) := by
        rintro ⟨h1, h97⟩
        exact hnq ⟨h1, idy, hgi, h97⟩
      rw [scanOtus_cons_some hgi, if_neg hcond]
      exact ih hrest

lemma scanOtus_ok_false_exists {align : String → String → String × String}
    {s : String} {c : ℕ} :
    ∀ {L : List (String × ℕ)}, scanOtus align s c L = Except.ok false →
      ∃ otu ∈ L, qualifies align s c otu := by
  intro L
  induction L with
  | nil =>
    intro h
    simp [scanOtus] at h
  | cons o rest ih =>
    intro h
    cases hgi : get_identity (align o.1 s) with
    | none =>
      rw [scanOtus_cons_none hgi] at h
      exact absurd h (by simp)
    | some idy =>
      rw [scanOtus_cons_some hgi] at h
      by_cases hcond : c < o.2 ∧ 97 < idy
      · exact ⟨o, List.mem_cons_self o rest, hcond.1, idy, hgi, hcond.2⟩
      · rw [if_neg hcond] at h
        obtain ⟨otu, hm, hq⟩ := ih h
        exact ⟨otu, List.mem_cons_of_mem o hm, hq⟩

lemma scanOtus_total {align : String → String → String × String}
    {s : String} {c : ℕ} :
    ∀ {L : List (String × ℕ)},
      (∀ otu ∈ L, get_identity (align otu.1 s) ≠ none) →
      scanOtus align s c L = Except.ok true ∨ scanOtus align s c L = Except.ok false := by
  intro L
  induction L with
  | nil => intro _; left; rfl
  | cons o rest ih =>
    intro h
    obtain ⟨hne, hrest⟩ := List.forall_mem_cons.mp h
    cases hgi : get_identity (align o.1 s) with
    | none => exact absurd hgi hne
    | some idy =>
      by_cases hcond : c < o.2 ∧ 97 < idy
      · rw [scanOtus_cons_some hgi, if_pos hcond]
        right
        rfl
      · rw [scanOtus_cons_some hgi, if_neg hcond]
        exact ih hrest

lemma scanOtus_first_match {align : String → String → String × String}
    {s : String} {c : ℕ} {o : String × ℕ} (hq : qualifies align s c o) :
    ∀ (l₁ : List (String × ℕ)),
      (∀ x ∈ l₁, get_identity (align x.1 s) ≠ none ∧ ¬ qualifies align s c x) →
      ∀ l₂, scanOtus align s c (l₁ ++ o :: l₂) = Except.ok false := by
  intro l₁
  induction l₁ with
  | nil =>
    intro _ l₂
    obtain ⟨h1, q, hgi, h97⟩ := hq
    rw [List.nil_append, scanOtus_cons_some hgi, if_pos ⟨h1, h97⟩]
  | cons x l₁ ih =>
    intro h l₂
    obtain ⟨⟨hne, hnq⟩, hrest⟩ := List.forall_mem_cons.mp h
    cases hgi : get_identity (align x.1 s) with
    | none => exact absurd hgi hne
    | some idy =>
      have hcond : ¬ (c < x.2 ∧ 97 < idy) := by
        rintro ⟨h1, h97⟩
        exact hnq ⟨h1, idy, hgi, h97⟩
      rw [List.cons_append, scanOtus_cons_some hgi, if_neg hcond]
      exact ih hrest l₂

lemma clusterStep_of_scan_false {align : String → String → String × String}
    {L : List (String × ℕ)} {s : String} {c : ℕ}
    (h : scanOtus align s c L = Except.ok false) :
    clusterStep align L s c = Except.ok L := by
  rw [clusterStep, h]

lemma clusterStep_of_scan_true {align : String → String → String × String}
    {L : List (String × ℕ)} {s : String} {c : ℕ}
    (h : scanOtus align s c L = Except.ok true) :
    clusterStep align L s c = Except.ok (L ++ [(s, c)]) := by
  rw [clusterStep, h]

lemma clusterStep_ok_cases {align : String → String → String × String}
    {L : List (String × ℕ)} {s : String} {c : ℕ} {res : List (String × ℕ)}
    (h : clusterStep align L s c = Except.ok res) :
    (scanOtus align s c L = Except.ok true ∧ res = L ++ [(s, c)]) ∨
    (scanOtus align s c L = Except.ok false ∧ res = L) := by
  rw [clusterStep] at h
  cases hscan : scanOtus align s c L with
  | error e =>
    rw [hscan] at h
    exact absurd h (by simp)
  | ok b =>
    rw [hscan] at h
    cases b with
    | true =>
      left
      exact ⟨rfl, by simpa using h.symm⟩
    | false =>
      right
      exact ⟨rfl, by simpa using h.symm⟩

lemma clusterLoop_append {align : String → String → String × String} :
    ∀ (rest : List (String × ℕ)) (L res : List (String × ℕ)),
      clusterLoop align L rest = Except.ok res →
      ∃ t, res = L ++ t ∧ ∀ x ∈ t, x ∈ rest := by
  intro rest
  induction rest with
  | nil =>
    intro L res h
    rw [clusterLoop] at h
    refine ⟨[], by simpa using h.symm, by simp⟩
  | cons rc rest ih =>
    intro L res h
    obtain ⟨sequence, count⟩ := rc
    rw [clusterLoop] at h
    cases hstep : clusterStep align L sequence count with
    | error e =>
      rw [hstep] at h
      exact absurd h (by simp)
    | ok l =>
      rw [hstep] at h
      obtain ⟨t, rfl, ht⟩ := ih l res h
      rcases clusterStep_ok_cases hstep with ⟨_, rfl⟩ | ⟨_, rfl⟩
      · refine ⟨(sequence, count) :: t, by simp, ?_⟩
        intro x hx
        rcases List.mem_cons.mp hx with rfl | hx'
        · exact List.mem_cons_self _ _
        · exact List.mem_cons_of_mem _ (ht x hx')
      · refine ⟨t, rfl, ?_⟩
        intro x hx
        exact List.mem_cons_of_mem _ (ht x hx)

lemma clusterLoop_length {align : String → String → String × String} :
    ∀ (rest : List (String × ℕ)) (L res : List (String × ℕ)),
      clusterLoop align L rest = Except.ok res →
      res.length ≤ L.length + rest.length := by
  intro rest
  induction rest with
  | nil =>
    intro L res h
    rw [clusterLoop] at h
    have : L = res := by simpa using h
    simp [← this]
  | cons rc rest ih =>
    intro L res h
    obtain ⟨sequence, count⟩ := rc
    rw [clusterLoop] at h
    cases hstep : clusterStep align L sequence count with
    | error e =>
      rw [hstep] at h
      exact absurd h (by simp)
    | ok l =>
      rw [hstep] at h
      have hlen := ih l res h
      rcases clusterStep_ok_cases hstep with ⟨_, rfl⟩ | ⟨_, rfl⟩
      · simp only [List.length_append, List.length_singleton] at hlen
        simp only [List.length_cons]
        omega
      · simp only [List.length_cons]
        omega

lemma clusterLoop_pairwise {align : String → String → String × String} :
    ∀ (rest : List (String × ℕ)) (L res : List (String × ℕ)),
      clusterLoop align L rest = Except.ok res →
      L.Pairwise (fun p q => ¬ qualifies align q.1 q.2 p) →
      res.Pairwise (fun p q => ¬ qualifies align q.1 q.2 p) := by
  intro rest
  induction rest with
  | nil =>
    intro L res h hL
    rw [clusterLoop] at h
    have : L = res := by simpa using h
    exact this ▸ hL
  | cons rc rest ih =>
    intro L res h hL
    obtain ⟨sequence, count⟩ := rc
    rw [clusterLoop] at h
    cases hstep : clusterStep align L sequence count with
    | error e =>
      rw [hstep] at h
      exact absurd h (by simp)
    | ok l =>
      rw [hstep] at h
      refine ih l res h ?_
      rcases clusterStep_ok_cases hstep with ⟨hscan, rfl⟩ | ⟨_, rfl⟩
      · rw [List.pairwise_append]
        refine ⟨hL, List.pairwise_singleton _ _, ?_⟩
        intro p hp q hq
        rw [List.mem_singleton] at hq
        subst hq
        exact scanOtus_ok_true_not_qualifies hscan p hp
      · exact hL

lemma clusterLoop_coverage {align : String → String → String × String} :
    ∀ (rest : List (String × ℕ)) (L res : List (String × ℕ)),
      clusterLoop align L rest = Except.ok res →
      ∀ r ∈ rest, r ∈ res ∨ ∃ o ∈ res, qualifies align r.1 r.2 o := by
  intro rest
  induction rest with
  | nil =>
    intro L res _ r hr
    simp at hr
  | cons rc rest ih =>
    intro L res h r hr
    obtain ⟨sequence, count⟩ := rc
    rw [clusterLoop] at h
    cases hstep : clusterStep align L sequence count with
    | error e =>
      rw [hstep] at h
      exact absurd h (by simp)
    | ok l =>
      rw [hstep] at h
      rcases List.mem_cons.mp hr with rfl | hr'
      · obtain ⟨t, rfl, _⟩ := clusterLoop_append rest l _ h
        rcases clusterStep_ok_cases hstep with ⟨_, rfl⟩ | ⟨hscan, rfl⟩
        · left
          simp
        · right
          obtain ⟨o, ho, hq⟩ := scanOtus_ok_false_exists hscan
          exact ⟨o, List.mem_append_left t ho, hq⟩
      · exact ih l res h r hr'

/-- C1: a dereplicated record (S, C) is absorbed (the OTU list is returned
unchanged) exactly when some existing OTU has a strictly greater count and
an alignment identity strictly above 97, it is appended as a new OTU when
no existing OTU qualifies, and the scan short-circuits at the first
qualifying OTU in list order: the elements after it — even ones whose
alignment would make `get_identity` fail — are never reached. -/
theorem C1_first_match_absorption (align : String → String → String × String)
    (s : String) (c : ℕ) :
    (∀ otu_list : List (String × ℕ),
      (∀ otu ∈ otu_list, (align otu.1 s).1 ≠ "") →
      ((∃ otu ∈ otu_list, qualifies align s c otu) →
        clusterStep align otu_list s c = Except.ok otu_list) ∧
      ((∀ otu ∈ otu_list, ¬ qualifies align s c otu) →
        clusterStep align otu_list s c = Except.ok (otu_list ++ [(s, c)]))) ∧
    (∀ (l₁ : List (String × ℕ)) (o : String × ℕ) (l₂ : List (String × ℕ)),
      (∀ x ∈ l₁, (align x.1 s).1 ≠ "" ∧ ¬ qualifies align s c x) →
      qualifies align s c o →
      clusterStep align (l₁ ++ o :: l₂) s c = Except.ok (l₁ ++ o :: l₂)) := by
  have hconv : ∀ otu : String × ℕ, (align otu.1 s).1 ≠ "" →
      get_identity (align otu.1 s) ≠ none := by
    intro otu hne hnone
    exact hne ((get_identity_none_iff _).mp hnone)
  constructor
  · intro otu_list hal
    constructor
    · rintro ⟨o, ho, hq⟩
      rcases scanOtus_total (fun otu h => hconv otu (hal otu h)) with htrue | hfalse
      · exact absurd hq (scanOtus_ok_true_not_qualifies htrue o ho)
      · exact clusterStep_of_scan_false hfalse
    · intro hnone
      exact clusterStep_of_scan_true
        (scanOtus_ok_true_of_forall
          (fun otu h => ⟨hconv otu (hal otu h), hnone otu h⟩))
  · intro l₁ o l₂ hl₁ hq
    exact clusterStep_of_scan_false
      (scanOtus_first_match hq l₁
        (fun x hx => ⟨hconv x (hl₁ x hx).1, (hl₁ x hx).2⟩) l₂)

/-- C2: when the dereplication yields no record, `abundance_greedy_clustering`
fails with the distinguishable `StopIteration` error and never returns an
OTU list (in particular not an empty one). -/
theorem C2_empty_derep_errors (align : String → String → String × String)
    (lines : List String) (minseqlen mincount : ℕ)
    (h : dereplication_fulllength lines minseqlen mincount = []) :
    abundance_greedy_clustering_file align lines minseqlen mincount =
      Except.error AgcError.stopIteration ∧
    ∀ l : List (String × ℕ),
      abundance_greedy_clustering_file align lines minseqlen mincount ≠ Except.ok l := by
  rw [abundance_greedy_clustering_file, h]
  exact ⟨rfl, by simp [abundance_greedy_clustering]⟩

/-- C5: in a successfully returned OTU list, no earlier element has both a
strictly greater count than a later element and an alignment identity with
it strictly above 97 (greedy independence), and every dereplicated record
is either in the list or absorbed by some list element. -/
theorem C5_greedy_independent (align : String → String → String × String)
    (derep l : List (String × ℕ))
    (h : abundance_greedy_clustering align derep = Except.ok l) :
    l.Pairwise (fun p q => ¬ qualifies align q.1 q.2 p) ∧
    ∀ r ∈ derep, r ∈ l ∨ ∃ o ∈ l, qualifies align r.1 r.2 o := by
  cases derep with
  | nil =>
    rw [abundance_greedy_clustering] at h
    exact absurd h (by simp)
  | cons first rest =>
    rw [abundance_greedy_clustering] at h
    constructor
    · exact clusterLoop_pairwise rest [first] l h (List.pairwise_singleton _ _)
    · intro r hr
      rcases List.mem_cons.mp hr with hfe | hr'
      · left
        obtain ⟨t, hres, _⟩ := clusterLoop_append rest [first] l h
        rw [hres, hfe]
        simp
      · exact clusterLoop_coverage rest [first] l h r hr'

/-- C7: for a non-empty dereplicated input the first element of the returned
OTU list is the first (most abundant) dereplicated record, the final length
is at most the number of dereplicated records, and each processing step only
appends to the OTU list (it never shrinks or reorders it). -/
theorem C7_seed_and_growth (align : String → String → String × String)
    (first : String × ℕ) (rest l : List (String × ℕ))
    (h : abundance_greedy_clustering align (first :: rest) = Except.ok l) :
    l.head? = some first ∧ l.length ≤ (first :: rest).length ∧
    ∀ (state : List (String × ℕ)) (s : String) (c : ℕ) (res : List (String × ℕ)),
      clusterStep align state s c = Except.ok res → ∃ t, res = state ++ t := by
  rw [abundance_greedy_clustering] at h
  refine ⟨?_, ?_, ?_⟩
  · obtain ⟨t, rfl, _⟩ := clusterLoop_append rest [first] l h
    simp
  · have := clusterLoop_length rest [first] l h
    simp only [List.length_cons, List.length_nil] at this ⊢
    omega
  · intro state s c res hstep
    rcases clusterStep_ok_cases hstep with ⟨_, rfl⟩ | ⟨_, rfl⟩
    · exact ⟨[(s, c)], rfl⟩
    · exact ⟨[], by simp⟩

/-- C10: absorption leaves the OTU list entirely unchanged — the absorbing
step returns the list as it was, and every record of the final list is
literally one of the dereplicated records, so no count was incremented by
the absorbed sequences. -/
theorem C10_absorption_frame (align : String → String → String × String)
    (derep l : List (String × ℕ))
    (h : abundance_greedy_clustering align derep = Except.ok l) :
    (∀ x ∈ l, x ∈ derep) ∧
    ∀ (state : List (String × ℕ)) (s : String) (c : ℕ),
      scanOtus align s c state = Except.ok false →
      clusterStep align state s c = Except.ok state := by
  constructor
  · cases derep with
    | nil =>
      rw [abundance_greedy_clustering] at h
      exact absurd h (by simp)
    | cons first rest =>
      rw [abundance_greedy_clustering] at h
      obtain ⟨t, rfl, ht⟩ := clusterLoop_append rest [first] l h
      intro x hx
      rcases List.mem_append.mp hx with hx | hx
      · rw [List.mem_singleton] at hx
        subst hx
        exact List.mem_cons_self _ _
      · exact List.mem_cons_of_mem _ (ht x hx)
  · intro state s c hscan
    exact clusterStep_of_scan_false hscan

/-! ## Concrete instances for the clustering theorems -/

/-- A degenerate aligner used to instantiate the clustering theorems on
concrete inputs: it returns the two sequences unchanged. -/
def alignRaw (a b : String) : String × String := (a, b)

lemma get_identity_self {s : String} (h : s ≠ "") : get_identity (s, s) = some 100 := by
  rw [get_identity_some s h, nb_identity_self]
  have hpos : 0 < s.length :=
    Nat.pos_of_ne_zero (fun h0 => h (string_length_eq_zero_iff.mp h0))
  have hlen0 : ((s.length : ℚ)) ≠ 0 := by exact_mod_cast Nat.pos_iff_ne_zero.mp hpos
  rw [div_self hlen0]
  norm_num

lemma get_identity_AT : get_identity ("AAAA", "TTTT") = some 0 := by
  have h1 : nb_identity "AAAA" "TTTT" = 0 := rfl
  rw [get_identity_some "TTTT" (by decide), h1, show "AAAA".length = 4 from rfl]
  norm_num

lemma clusterRun_example :
    abundance_greedy_clustering alignRaw [("AAAA", 5), ("TTTT", 3)] =
      Except.ok [("AAAA", 5), ("TTTT", 3)] := by
  have hid : get_identity (alignRaw (("AAAA", 5) : String × ℕ).1 "TTTT") = some 0 :=
    get_identity_AT
  have hscan : scanOtus alignRaw "TTTT" 3 [("AAAA", 5)] = Except.ok true := by
    rw [scanOtus_cons_some hid, if_neg (by norm_num)]
    rfl
  have hstep := clusterStep_of_scan_true hscan
  rw [abundance_greedy_clustering, clusterLoop, hstep]
  rfl

/-- Witness for C1: with the raw aligner, the candidate (AAAA, 2) is absorbed
by the first OTU (AAAA, 5); the second list entry — whose alignment would
make `get_identity` fail — is never reached. -/
theorem C1_first_match_absorption_witness :
    clusterStep alignRaw [("AAAA", 5), ("", 9)] "AAAA" 2 =
      Except.ok [("AAAA", 5), ("", 9)] := by
  have hq : qualifies alignRaw "AAAA" 2 ("AAAA", 5) :=
    ⟨by norm_num, 100, get_identity_self (by decide), by norm_num⟩
  have happ := (C1_first_match_absorption alignRaw "AAAA" 2).2 [] ("AAAA", 5) [("", 9)]
    (by simp) hq
  simpa using happ

/-- Witness for C2 at a concrete input whose dereplication is empty. -/
theorem C2_empty_derep_errors_witness :
    abundance_greedy_clustering_file alignRaw [">s"] 1 1 =
      Except.error AgcError.stopIteration :=
  (C2_empty_derep_errors alignRaw [">s"] 1 1 (by
    have h : read_fasta [">s"] 1 = [] := rfl
    simp [dereplication_fulllength, dict_sorted, seq_dict, h])).1

/-- Witness for C5 at a concrete clustering run. -/
theorem C5_greedy_independent_witness :
    ([("AAAA", 5), ("TTTT", 3)] : List (String × ℕ)).Pairwise
      (fun p q => ¬ qualifies alignRaw q.1 q.2 p) ∧
    ∀ r ∈ ([("AAAA", 5), ("TTTT", 3)] : List (String × ℕ)),
      r ∈ ([("AAAA", 5), ("TTTT", 3)] : List (String × ℕ)) ∨
      ∃ o ∈ ([("AAAA", 5), ("TTTT", 3)] : List (String × ℕ)),
        qualifies alignRaw r.1 r.2 o :=
  C5_greedy_independent alignRaw [("AAAA", 5), ("TTTT", 3)] [("AAAA", 5), ("TTTT", 3)]
    clusterRun_example

/-- Witness for C7 at a concrete clustering run. -/
theorem C7_seed_and_growth_witness :
    ([("AAAA", 5), ("TTTT", 3)] : List (String × ℕ)).head? = some ("AAAA", 5) ∧
    ([("AAAA", 5), ("TTTT", 3)] : List (String × ℕ)).length ≤
      (("AAAA", 5) :: [("TTTT", 3)]).length ∧
    ∀ (state : List (String × ℕ)) (s : String) (c : ℕ) (res : List (String × ℕ)),
      clusterStep alignRaw state s c = Except.ok res → ∃ t, res = state ++ t :=
  C7_seed_and_growth alignRaw ("AAAA", 5) [("TTTT", 3)] [("AAAA", 5), ("TTTT", 3)]
    clusterRun_example

/-! ## The dereplicator -/

/-- The index of the first occurrence of `a` in a list (the length of the
list when `a` does not occur); used to state the first-occurrence tie-break
of the dereplication ranking. -/
def firstIdx {α : Type _} [DecidableEq α] (a : α) : List α → ℕ
  | [] => 0
  | x :: rest => if x = a then 0 else firstIdx a rest + 1

lemma firstIdx_cons_self {α : Type _} [DecidableEq α] (a : α) (l : List α) :
    firstIdx a (a :: l) = 0 := by
  simp [firstIdx]

lemma firstIdx_lt_length {α : Type _} [DecidableEq α] {a : α} :
    ∀ {l : List α}, a ∈ l → firstIdx a l < l.length := by
  intro l
  induction l with
  | nil => intro h; simp at h
  | cons x rest ih =>
    intro h
    rw [firstIdx]
    by_cases hx : x = a
    · simp [hx]
    · rw [if_neg hx, List.length_cons]
      have ha : a ∈ rest := by
        rcases List.mem_cons.mp h with h1 | h1
        · exact absurd h1.symm hx
        · exact h1
      exact Nat.succ_lt_succ (ih ha)

lemma firstIdx_append_left {α : Type _} [DecidableEq α] {a : α} :
    ∀ {l₁ : List α}, a ∈ l₁ → ∀ (l₂ : List α), firstIdx a (l₁ ++ l₂) = firstIdx a l₁ := by
  intro l₁
  induction l₁ with
  | nil => intro h; simp at h
  | cons x rest ih =>
    intro h l₂
    rw [List.cons_append, firstIdx, firstIdx]
    by_cases hx : x = a
    · rw [if_pos hx, if_pos hx]
    · rw [if_neg hx, if_neg hx]
      have ha : a ∈ rest := by
        rcases List.mem_cons.mp h with h1 | h1
        · exact absurd h1.symm hx
        · exact h1
      rw [ih ha l₂]

lemma firstIdx_append_right {α : Type _} [DecidableEq α] {a : α} :
    ∀ {l₁ : List α}, a ∉ l₁ → ∀ (l₂ : List α),
      firstIdx a (l₁ ++ l₂) = l₁.length + firstIdx a l₂ := by
  intro l₁
  induction l₁ with
  | nil => intro _ l₂; simp
  | cons x rest ih =>
    intro h l₂
    have hx : x ≠ a := fun he => h (he ▸ List.mem_cons_self x rest)
    have ha : a ∉ rest := fun he => h (List.mem_cons_of_mem x he)
    rw [List.cons_append, firstIdx, if_neg hx, ih ha l₂, List.length_cons]
    omega

lemma pair_sublist_firstIdx_lt {α : Type _} [DecidableEq α] :
    ∀ {l : List α} {a b : α}, [a, b] <+ l → l.Nodup → firstIdx a l < firstIdx b l := by
  intro l
  induction l with
  | nil =>
    intro a b h _
    exact absurd h (by simp)
  | cons x rest ih =>
    intro a b h hnd
    rcases List.sublist_cons_iff.mp h with h' | ⟨r, hr, h'⟩
    · have hmem := h'.subset
      have ha : a ∈ rest := hmem (by simp)
      have hb : b ∈ rest := hmem (by simp)
      have hx : x ∉ rest := (List.nodup_cons.mp hnd).1
      have hxa : x ≠ a := fun he => hx (he ▸ ha)
      have hxb : x ≠ b := fun he => hx (he ▸ hb)
      rw [firstIdx, firstIdx, if_neg hxa, if_neg hxb]
      exact Nat.succ_lt_succ (ih h' (List.nodup_cons.mp hnd).2)
    · obtain ⟨hax, hbr⟩ := List.cons_eq_cons.mp hr
      subst hax
      rw [← hbr] at h'
      have hb : b ∈ rest := List.singleton_sublist.mp h'
      have hx : a ∉ rest := (List.nodup_cons.mp hnd).1
      have hab : a ≠ b := fun he => hx (he ▸ hb)
      rw [firstIdx_cons_self, firstIdx, if_neg hab]
      exact Nat.succ_pos _

/-- The key list of the association list modelling `seq_dict`. -/
def keys (l : List (String × ℕ)) : List String := l.map Prod.fst

/-- Invariant of the tally loop of `dereplication_fulllength` after
processing the prefix `pre` of the extracted sequences: the keys are
distinct, each entry holds the number of occurrences of its key in `pre`,
the keys are exactly the members of `pre`, and entries are ordered by first
occurrence in `pre`. -/
def TallyInv (pre : List String) (acc : List (String × ℕ)) : Prop :=
  (keys acc).Nodup ∧
  (∀ p ∈ acc, p.2 = pre.count p.1) ∧
  (∀ s : String, s ∈ pre ↔ s ∈ keys acc) ∧
  acc.Pairwise fun p q => firstIdx p.1 pre < firstIdx q.1 pre

lemma keys_tallyInsert_mem {acc : List (String × ℕ)} {s : String} :
    keys (acc.map fun p => if p.1 = s then (p.1, p.2 + 1) else p) = keys acc := by
  rw [keys, keys, List.map_map]
  apply List.map_congr_left
  intro p _
  by_cases hp : p.1 = s <;> simp [hp]

lemma tallyInsert_inv {pre : List String} {acc : List (String × ℕ)} (s : String)
    (h : TallyInv pre acc) : TallyInv (pre ++ [s]) (tallyInsert acc s) := by
  obtain ⟨hnd, hcount, hmem, hpair⟩ := h
  have hidx : ∀ k : String, k ∈ pre → firstIdx k (pre ++ [s]) = firstIdx k pre :=
    fun k hk => firstIdx_append_left hk [s]
  by_cases hs : s ∈ acc.map Prod.fst
  · have hspre : s ∈ pre := (hmem s).mpr hs
    rw [tallyInsert, if_pos hs]
    refine ⟨?_, ?_, ?_, ?_⟩
    · rw [keys_tallyInsert_mem]
      exact hnd
    · intro p hp
      rw [List.mem_map] at hp
      obtain ⟨q, hq, rfl⟩ := hp
      have hqc := hcount q hq
      by_cases hqs : q.1 = s
      · rw [if_pos hqs]
        show q.2 + 1 = (pre ++ [s]).count q.1
        have h1 : [s].count q.1 = 1 := by
          rw [hqs]
          simp
        rw [List.count_append, h1, hqc]
      · rw [if_neg hqs]
        have h0 : [s].count q.1 = 0 := by
          rw [List.count_eq_zero]
          intro h1
          rw [List.mem_singleton] at h1
          exact hqs h1
        rw [List.count_append, h0, hqc]
        omega
    · intro k
      rw [keys_tallyInsert_mem, List.mem_append, List.mem_singleton]
      constructor
      · rintro (h1 | rfl)
        · exact (hmem k).mp h1
        · exact hs
      · intro h1
        exact Or.inl ((hmem k).mpr h1)
    · rw [List.pairwise_map]
      refine List.Pairwise.imp_of_mem ?_ hpair
      intro p q hp hq hrel
      have hp1 : p.1 ∈ pre := (hmem p.1).mpr (List.mem_map_of_mem Prod.fst hp)
      have hq1 : q.1 ∈ pre := (hmem q.1).mpr (List.mem_map_of_mem Prod.fst hq)
      have hfp : (if p.1 = s then (p.1, p.2 + 1) else p).1 = p.1 := by
        by_cases h1 : p.1 = s <;> simp [h1]
      have hfq : (if q.1 = s then (q.1, q.2 + 1) else q).1 = q.1 := by
        by_cases h1 : q.1 = s <;> simp [h1]
      rw [hfp, hfq, hidx _ hp1, hidx _ hq1]
      exact hrel
  · have hspre : s ∉ pre := fun h1 => hs ((hmem s).mp h1)
    rw [tallyInsert, if_neg hs]
    have hkeys : keys (acc ++ [(s, 1)]) = keys acc ++ [s] := by
      simp [keys]
    refine ⟨?_, ?_, ?_, ?_⟩
    · rw [hkeys, List.nodup_append]
      refine ⟨hnd, List.nodup_singleton s, ?_⟩
      intro a ha hb
      rw [List.mem_singleton] at hb
      exact hs (hb ▸ ha)
    · intro p hp
      rcases List.mem_append.mp hp with hp' | hp'
      · have hqc := hcount p hp'
        have hp1 : p.1 ∈ pre := (hmem p.1).mpr (List.mem_map_of_mem Prod.fst hp')
        have hne : p.1 ≠ s := fun he => hspre (he ▸ hp1)
        have h0 : [s].count p.1 = 0 := by
          rw [List.count_eq_zero]
          intro h1
          rw [List.mem_singleton] at h1
          exact hne h1
        rw [List.count_append, h0, hqc]
        omega
      · rw [List.mem_singleton] at hp'
        subst hp'
        show (1 : ℕ) = (pre ++ [s]).count s
        rw [List.count_append, List.count_eq_zero.mpr hspre]
        simp
    · intro k
      rw [hkeys, List.mem_append, List.mem_append, List.mem_singleton]
      constructor
      · rintro (h1 | h1)
        · exact Or.inl ((hmem k).mp h1)
        · exact Or.inr h1
      · rintro (h1 | h1)
        · exact Or.inl ((hmem k).mpr h1)
        · exact Or.inr h1
    · rw [List.pairwise_append]
      refine ⟨?_, List.pairwise_singleton _ _, ?_⟩
      · refine List.Pairwise.imp_of_mem ?_ hpair
        intro p q hp hq hrel
        have hp1 : p.1 ∈ pre := (hmem p.1).mpr (List.mem_map_of_mem Prod.fst hp)
        have hq1 : q.1 ∈ pre := (hmem q.1).mpr (List.mem_map_of_mem Prod.fst hq)
        rw [hidx _ hp1, hidx _ hq1]
        exact hrel
      · intro p hp q hq
        rw [List.mem_singleton] at hq
        subst hq
        have hp1 : p.1 ∈ pre := (hmem p.1).mpr (List.mem_map_of_mem Prod.fst hp)
        have h2 : firstIdx ((s, 1) : String × ℕ).1 (pre ++ [s]) = pre.length := by
          show firstIdx s (pre ++ [s]) = pre.length
          rw [firstIdx_append_right hspre, firstIdx_cons_self]
          omega
        rw [hidx _ hp1, h2]
        exact firstIdx_lt_length hp1

lemma tallyInv_nil : TallyInv [] [] := by
  refine ⟨List.nodup_nil, ?_, ?_, List.Pairwise.nil⟩
  · intro p hp
    simp at hp
  · intro s
    simp [keys]

lemma tallyInv_foldl :
    ∀ (l pre : List String) (acc : List (String × ℕ)),
      TallyInv pre acc → TallyInv (pre ++ l) (l.foldl tallyInsert acc)
  | [], pre, acc, h => by simpa using h
  | s :: rest, pre, acc, h => by
    have h2 := tallyInv_foldl rest (pre ++ [s]) (tallyInsert acc s) (tallyInsert_inv s h)
    simpa [List.append_assoc] using h2

lemma seq_dict_inv (seqs : List String) : TallyInv seqs (seq_dict seqs) := by
  have h := tallyInv_foldl seqs [] [] tallyInv_nil
  simpa [seq_dict] using h

/-! ## The ranking produced by `dict_sorted` -/

lemma countLE_trans (a b c : String × ℕ) (h1 : decide (b.2 ≤ a.2) = true)
    (h2 : decide (c.2 ≤ b.2) = true) : decide (c.2 ≤ a.2) = true := by
  simp only [decide_eq_true_eq] at h1 h2 ⊢
  omega

lemma countLE_total (a b : String × ℕ) :
    (decide (b.2 ≤ a.2) || decide (a.2 ≤ b.2)) = true := by
  simp only [Bool.or_eq_true, decide_eq_true_eq]
  omega

lemma dict_sorted_perm (d : List (String × ℕ)) : dict_sorted d ~ d :=
  List.mergeSort_perm d _

lemma dict_sorted_sorted (d : List (String × ℕ)) :
    (dict_sorted d).Pairwise fun p q => q.2 ≤ p.2 := by
  have h := List.sorted_mergeSort countLE_trans countLE_total d
  exact h.imp fun hab => of_decide_eq_true hab

lemma pair_sublist_of_getElem {α : Type _} {l : List α} {i j : ℕ}
    (hi : i < l.length) (hj : j < l.length) (hij : i < j) :
    [l[i], l[j]] <+ l := by
  have h := @List.map_getElem_sublist _ l [⟨i, hi⟩, ⟨j, hj⟩] (by simp [hij])
  simpa using h

lemma mem_pair_order {α : Type _} :
    ∀ (l : List α) {a b : α}, a ∈ l → b ∈ l → a ≠ b → [a, b] <+ l ∨ [b, a] <+ l := by
  intro l
  induction l with
  | nil =>
    intro a b ha _ _
    simp at ha
  | cons x rest ih =>
    intro a b ha hb hne
    rcases List.mem_cons.mp ha with rfl | ha'
    · have hb' : b ∈ rest := by
        rcases List.mem_cons.mp hb with h1 | h1
        · exact absurd h1.symm hne
        · exact h1
      left
      exact List.Sublist.cons₂ _ (List.singleton_sublist.mpr hb')
    · rcases List.mem_cons.mp hb with rfl | hb'
      · right
        exact List.Sublist.cons₂ _ (List.singleton_sublist.mpr ha')
      · rcases ih ha' hb' hne with h | h
        · left
          exact List.Sublist.cons _ h
        · right
          exact List.Sublist.cons _ h

lemma dict_sorted_stable_pairwise {d : List (String × ℕ)} (hnd : d.Nodup)
    {R : String × ℕ → String × ℕ → Prop} (hpair : d.Pairwise R) :
    (dict_sorted d).Pairwise fun p q => p.2 = q.2 → R p q := by
  rw [List.pairwise_iff_getElem]
  intro i j hi hj hij hcnt
  have hperm : dict_sorted d ~ d := dict_sorted_perm d
  have hsnd : (dict_sorted d).Nodup := hperm.nodup_iff.mpr hnd
  have hpq : [(dict_sorted d)[i], (dict_sorted d)[j]] <+ dict_sorted d :=
    pair_sublist_of_getElem hi hj hij
  have hne : (dict_sorted d)[i] ≠ (dict_sorted d)[j] := by
    intro he
    have := (List.Nodup.getElem_inj_iff hsnd).mp he
    omega
  have hmi : (dict_sorted d)[i] ∈ d := hperm.subset (List.getElem_mem hi)
  have hmj : (dict_sorted d)[j] ∈ d := hperm.subset (List.getElem_mem hj)
  rcases mem_pair_order d hmi hmj hne with hord | hord
  · exact List.rel_of_pairwise_cons (List.Pairwise.sublist hord hpair) (List.mem_singleton.mpr rfl)
  · exfalso
    have hle : decide ((dict_sorted d)[i].2 ≤ (dict_sorted d)[j].2) = true := by
      rw [hcnt]
      simp
    have hqp : [(dict_sorted d)[j], (dict_sorted d)[i]] <+ dict_sorted d :=
      List.pair_sublist_mergeSort countLE_trans countLE_total hle hord
    have h1 := pair_sublist_firstIdx_lt hpq hsnd
    have h2 := pair_sublist_firstIdx_lt hqp hsnd
    omega

/-- C4: the dereplication output is non-increasing in count, and records
with equal count appear in the order of the first occurrence of their
sequence in the length-filtered extracted input. -/
theorem C4_ranking_order (lines : List String) (minseqlen mincount : ℕ) :
    (dereplication_fulllength lines minseqlen mincount).Pairwise
      fun p q => q.2 ≤ p.2 ∧ (p.2 = q.2 →
        firstIdx p.1 (read_fasta lines minseqlen) <
          firstIdx q.1 (read_fasta lines minseqlen)) := by
  obtain ⟨hnd, _, _, hpair⟩ := seq_dict_inv (read_fasta lines minseqlen)
  have hndd : (seq_dict (read_fasta lines minseqlen)).Nodup :=
    List.Nodup.of_map Prod.fst hnd
  have hsorted := dict_sorted_sorted (seq_dict (read_fasta lines minseqlen))
  have hstable := dict_sorted_stable_pairwise hndd hpair
  have hboth := hsorted.and hstable
  rw [dereplication_fulllength]
  exact List.Pairwise.sublist (List.filter_sublist _) hboth

/-- C6: every emitted record carries the exact number of occurrences of its
sequence among the length-filtered input sequences and a count at least
`mincount`; every sequence whose count reaches `mincount` is emitted with
that count; and no sequence value appears twice in the output. -/
theorem C6_derep_counts (lines : List String) (minseqlen mincount : ℕ) :
    (∀ p ∈ dereplication_fulllength lines minseqlen mincount,
      p.2 = (read_fasta lines minseqlen).count p.1 ∧ mincount ≤ p.2) ∧
    (∀ s ∈ read_fasta lines minseqlen,
      mincount ≤ (read_fasta lines minseqlen).count s →
      (s, (read_fasta lines minseqlen).count s) ∈
        dereplication_fulllength lines minseqlen mincount) ∧
    ((dereplication_fulllength lines minseqlen mincount).map Prod.fst).Nodup := by
  obtain ⟨hnd, hcount, hmem, _⟩ := seq_dict_inv (read_fasta lines minseqlen)
  refine ⟨?_, ?_, ?_⟩
  · intro p hp
    rw [dereplication_fulllength, List.mem_filter] at hp
    obtain ⟨hp1, hp2⟩ := hp
    rw [dict_sorted, List.mem_mergeSort] at hp1
    exact ⟨hcount p hp1, of_decide_eq_true hp2⟩
  · intro s hs hge
    have hks : s ∈ keys (seq_dict (read_fasta lines minseqlen)) := (hmem s).mp hs
    rw [keys, List.mem_map] at hks
    obtain ⟨p, hp, hfst⟩ := hks
    have hc := hcount p hp
    have hps : p = (s, (read_fasta lines minseqlen).count s) := by
      obtain ⟨p1, p2⟩ := p
      have h1 : p1 = s := hfst
      have h2 : p2 = (read_fasta lines minseqlen).count p1 := hc
      subst h1
      rw [h2]
    rw [dereplication_fulllength, List.mem_filter]
    constructor
    · rw [dict_sorted, List.mem_mergeSort, ← hps]
      exact hp
    · simpa using hge
  · rw [dereplication_fulllength]
    have hperm : (dict_sorted (seq_dict (read_fasta lines minseqlen))).map Prod.fst ~
        keys (seq_dict (read_fasta lines minseqlen)) :=
      (dict_sorted_perm _).map Prod.fst
    have h2 : ((dict_sorted (seq_dict (read_fasta lines minseqlen))).map Prod.fst).Nodup :=
      hperm.nodup_iff.mpr hnd
    exact List.Nodup.sublist (List.Sublist.map Prod.fst (List.filter_sublist _)) h2

/-- Witness for C10 at a concrete clustering run. -/
theorem C10_absorption_frame_witness :
    (∀ x ∈ ([("AAAA", 5), ("TTTT", 3)] : List (String × ℕ)),
      x ∈ ([("AAAA", 5), ("TTTT", 3)] : List (String × ℕ))) ∧
    ∀ (state : List (String × ℕ)) (s : String) (c : ℕ),
      scanOtus alignRaw s c state = Except.ok false →
      clusterStep alignRaw state s c = Except.ok state :=
  C10_absorption_frame alignRaw [("AAAA", 5), ("TTTT", 3)] [("AAAA", 5), ("TTTT", 3)]
    clusterRun_example

end Agc
